import Mathlib

/-!
Verification of the repository-boundary resolver and permission gate of
grove (grove.go, webui.go).

Modelling conventions (shallow embedding of the Go code):

* Absolute, cleaned filesystem paths are modelled as lists of path
  components (`List (List Char)`); the root `/` is `[]`.  On such paths the
  Go functions `path.Dir`, `path.Base` and `path.Join` coincide with
  `List.dropLast`, `List.getLast` and list append / the `goJoinAbs` and
  `accJoin` functions below (Go `path.Clean` is the identity on cleaned
  paths, and `path.Clean(toplevel)` on line 193 of grove.go discards its
  result anyway).  String equality of cleaned absolute paths coincides
  with equality of their component lists.
* Go strings (the accumulated `file` suffix) are modelled as `List Char`;
  `strings.HasPrefix` is `List.isPrefixOf`, `strings.SplitAfterN(s, "/", 2)[1]`
  is `afterFirstSep` (everything after the first separator; in the code the
  scrutinee always contains a separator), `strings.TrimRight(s, "/")` is
  `trimRightSep`.
* The filesystem is a function from paths to `Option FileInfo`
  (`none` = `os.Stat` returns an error).  `info.Mode().Perm()` is
  `mode &&& 0o777`; `info.IsDir()` and `info.Name()` are the corresponding
  fields.
* The global `Perms` threshold is passed as an explicit `perms` argument.
* The upward-walk loop of `SplitRepository` is modelled with an explicit
  fuel parameter; the loop body runs once per unit of fuel and `none`
  means the fuel ran out.  For a requested path that is a descendant of
  `toplevel` the loop provably needs at most `depth + 1` iterations, so
  `SplitRepository` supplies `p.length + 1` fuel; the only inputs on which
  the Go loop fails to terminate (cursor reaches `/` with `toplevel ≠ /`
  and no marker at `/`) are exactly the ones exhausting any fuel.
  The function also counts the number of upward traversals performed.
-/

namespace Grove

/-- Stat result for a filesystem entry: base name, directory flag, and the
full Go `FileMode` (whose low 9 bits are the permission bits). -/
structure FileInfo where
  name : List Char
  isDir : Bool
  mode : Nat
deriving DecidableEq

/-- A filesystem: maps an absolute cleaned path (list of components) to its
stat result; `none` models an `os.Stat` error. -/
abbrev FS : Type := List (List Char) → Option FileInfo

/-- The repository marker component `.git`. -/
def gitMarker : List Char := ".git".toList

/-- CheckPermBits (grove.go lines 278-295): base mask 0o5 for directories
(read+execute) and 0o4 for files (read), shifted left by 3·perms, tested
for non-zero intersection with the entry's permission bits. -/
def CheckPermBits (perms : Nat) (info : FileInfo) : Bool :=
  let permBits : Nat := if info.isDir then 5 else 4
  decide (0 < (info.mode &&& 0o777) &&& (permBits <<< (perms * 3)))

/-- CheckPerms (grove.go lines 271-276): rejects names starting with `.`,
otherwise delegates to `CheckPermBits`. -/
def CheckPerms (perms : Nat) (info : FileInfo) : Bool :=
  if ['.'].isPrefixOf info.name then false else CheckPermBits perms info

/-- Everything after the first `/` of `s`; models
`strings.SplitAfterN(s, "/", 2)[1]` for an `s` containing a `/` (in
`SplitRepository` the scrutinee always ends with `/`). -/
def afterFirstSep (s : List Char) : List Char :=
  (s.dropWhile (fun ch => ch != '/')).drop 1

/-- Models `strings.TrimRight(s, "/")`: removes all trailing `/`. -/
def trimRightSep (s : List Char) : List Char :=
  (s.reverse.dropWhile (fun ch => ch == '/')).reverse

/-- Models `path.Join(path.Base(repository), file)` for a single valid
component `base` and an accumulated suffix `file` (grove.go line 203). -/
def accJoin (base file : List Char) : List Char :=
  if file = [] then base else base ++ '/' :: file

/-- Components joined by `/` (without the leading `/`). -/
def intercalateSep (cs : List (List Char)) : List Char :=
  List.intercalate ['/'] cs

/-- The string rendering of an absolute cleaned path. -/
def renderAbs (p : List (List Char)) : List Char :=
  '/' :: intercalateSep p

/-- Models `path.Join(toplevel, file)` (grove.go line 209) where `toplevel`
is an absolute cleaned path and `file` is the accumulated suffix. -/
def goJoinAbs (top : List (List Char)) (file : List Char) : List Char :=
  if file = [] then renderAbs top
  else if top = [] then '/' :: file
  else renderAbs top ++ '/' :: file

/-- The result quadruple of `SplitRepository`:
`(repository, file, isFile, status)`. -/
structure SplitResult where
  repository : List Char
  file : List Char
  isFile : Bool
  status : Nat
deriving DecidableEq

/-- Suffix classification of `SplitRepository` (grove.go lines 240-263),
run after a repository root has been confirmed and permitted: returns the
updated `(file, isFile, status)`.  The code first appends a `/` to a
non-empty suffix, then tests the `blob/` and `tree/` prefixes. -/
def classifySuffix (file : List Char) : List Char × Bool × Nat :=
  if file = [] then (file, false, 200)
  else
    let f := file ++ ['/']
    if "blob/".toList.isPrefixOf f then
      (trimRightSep (afterFirstSep f), true, 200)
    else if "tree/".toList.isPrefixOf f then
      let rest := afterFirstSep f
      (if rest = [] then "./".toList else rest, false, 200)
    else
      (f, false, 404)

/-- Marker-confirmation step of `SplitRepository` (grove.go lines 223-264):
the `.git` marker has been observed under `cur`; stat `cur` itself
(failure is 500), check `CheckPerms` (failure is 403), otherwise classify
the accumulated suffix. -/
def markerResult (fs : FS) (perms : Nat) (cur : List (List Char))
    (file : List Char) : SplitResult :=
  match fs cur with
  | none => ⟨renderAbs cur, file, false, 500⟩
  | some fi =>
    if CheckPerms perms fi then
      let c := classifySuffix file
      ⟨renderAbs cur, c.1, c.2.1, c.2.2⟩
    else ⟨renderAbs cur, file, false, 403⟩

/-- The upward-walk loop of `SplitRepository` (grove.go lines 198-265) on
state `(cur, file)`, with a fuel bound and a counter of upward traversals
performed.  Each loop iteration: stop at `toplevel` (returning
`path.Join(toplevel, file)` and an empty file), otherwise stat
`cur/.git`; on error traverse upward, else run the marker-confirmation
step.  `cur.getLastD []` stands for `path.Base`: the two differ only when
`cur = []`, and in that case the branch taken recurses with `cur`
unchanged forever in Go (fuel exhaustion, `none`, here). -/
def splitLoopC (fs : FS) (perms : Nat) (toplevel : List (List Char)) :
    List (List Char) → List Char → Nat → Nat → Option (SplitResult × Nat)
  | _, _, _, 0 => none
  | cur, file, steps, fuel + 1 =>
    if cur = toplevel then
      some (⟨goJoinAbs toplevel file, [], false, 200⟩, steps)
    else
      match fs (cur ++ [gitMarker]) with
      | none =>
          splitLoopC fs perms toplevel cur.dropLast
            (accJoin (cur.getLastD []) file) (steps + 1) fuel
      | some _ => some (markerResult fs perms cur file, steps)

/-- SplitRepository (grove.go lines 192-269): walk upward from `p` towards
`toplevel` looking for a `.git` marker.  `p.length + 1` fuel suffices for
every input on which the Go loop terminates. -/
def SplitRepository (fs : FS) (perms : Nat) (toplevel p : List (List Char)) :
    Option SplitResult :=
  (splitLoopC fs perms toplevel p [] 0 (p.length + 1)).map Prod.fst

/-- The directory-listing filter of `MakeDirPage` (webui.go lines 256-266,
also `MakeDirInfos` lines 81-90): for each name, stat `directory/name` and
keep `info.Name()` exactly when the stat succeeds and `CheckPerms`
accepts. -/
def dirListNames (fs : FS) (perms : Nat) (directory : List (List Char))
    (dirnames : List (List Char)) : List (List Char) :=
  dirnames.filterMap (fun n =>
    match fs (directory ++ [n]) with
    | some info => if CheckPerms perms info then some info.name else none
    | none => none)

/-! Helper lemmas about the path-string functions. -/

theorem intercalateSep_cons (x : List Char) (t : List (List Char)) (ht : t ≠ []) :
    intercalateSep (x :: t) = x ++ '/' :: intercalateSep t := by
  cases t with
  | nil => exact absurd rfl ht
  | cons y t' =>
    simp [intercalateSep, List.intercalate, List.intersperse]

theorem intercalateSep_ne_nil (s : List (List Char)) (hc : ∀ c ∈ s, c ≠ [])
    (hs : s ≠ []) : intercalateSep s ≠ [] := by
  cases s with
  | nil => exact absurd rfl hs
  | cons x t =>
    cases t with
    | nil =>
      have hx : x ≠ [] := hc x (by simp)
      simpa [intercalateSep, List.intercalate, List.intersperse] using hx
    | cons y t' =>
      rw [intercalateSep_cons x (y :: t') (by simp)]
      intro h
      rcases List.append_eq_nil.mp h with ⟨_, h2⟩
      exact List.cons_ne_nil _ _ h2

theorem intercalateSep_append (a b : List (List Char)) (ha : a ≠ []) (hb : b ≠ []) :
    intercalateSep (a ++ b) = intercalateSep a ++ '/' :: intercalateSep b := by
  induction a with
  | nil => exact absurd rfl ha
  | cons x a' ih =>
    cases a' with
    | nil =>
      rw [List.singleton_append, intercalateSep_cons x b hb]
      simp [intercalateSep, List.intercalate, List.intersperse]
    | cons y a'' =>
      have hne : (y :: a'') ++ b ≠ [] := by simp
      rw [List.cons_append, intercalateSep_cons x ((y :: a'') ++ b) hne,
        ih (by simp), intercalateSep_cons x (y :: a'') (by simp)]
      simp

theorem foldr_accJoin_eq_intercalate (s : List (List Char))
    (hc : ∀ c ∈ s, c ≠ []) : s.foldr accJoin [] = intercalateSep s := by
  induction s with
  | nil => simp [intercalateSep, List.intercalate]
  | cons x t ih =>
    have hct : ∀ c ∈ t, c ≠ [] := fun c hcmem => hc c (by simp [hcmem])
    cases t with
    | nil => simp [accJoin, intercalateSep, List.intercalate, List.intersperse]
    | cons y t' =>
      have hne : intercalateSep (y :: t') ≠ [] :=
        intercalateSep_ne_nil (y :: t') hct (by simp)
      rw [List.foldr_cons, ih hct, intercalateSep_cons x (y :: t') (by simp)]
      simp [accJoin, hne]

theorem goJoinAbs_foldr (top s : List (List Char)) (hc : ∀ c ∈ s, c ≠ []) :
    goJoinAbs top (s.foldr accJoin []) = renderAbs (top ++ s) := by
  cases s with
  | nil => simp [goJoinAbs]
  | cons x t =>
    rw [foldr_accJoin_eq_intercalate (x :: t) hc]
    have hne : intercalateSep (x :: t) ≠ [] :=
      intercalateSep_ne_nil (x :: t) hc (by simp)
    by_cases htop : top = []
    · subst htop
      simp [goJoinAbs, renderAbs, hne]
    · rw [goJoinAbs, if_neg hne, if_neg htop, renderAbs, renderAbs,
        intercalateSep_append top (x :: t) htop (by simp)]
      simp

theorem markerResult_repository (fs : FS) (perms : Nat)
    (cur : List (List Char)) (file : List Char) :
    (markerResult fs perms cur file).repository = renderAbs cur := by
  unfold markerResult
  cases fs cur with
  | none => rfl
  | some fi =>
    by_cases h : CheckPerms perms fi <;> simp [h]

theorem classifySuffix_status (f : List Char) :
    (classifySuffix f).2.2 = 200 ∨ (classifySuffix f).2.2 = 404 := by
  unfold classifySuffix
  split
  · exact Or.inl rfl
  · dsimp only
    split
    · exact Or.inl rfl
    · split
      · split <;> exact Or.inl rfl
      · exact Or.inr rfl

/-! The two behaviours of the upward walk on a descendant of `toplevel`:
either no `.git` marker is met before `toplevel` and the walk stops there,
or the walk stops at the innermost marked directory. -/

theorem splitLoop_noMarker (fs : FS) (perms : Nat) (top : List (List Char)) :
    ∀ (s : List (List Char)) (file : List Char) (steps fuel : Nat),
      s.length < fuel →
      (∀ k, 1 ≤ k → k ≤ s.length → fs (top ++ s.take k ++ [gitMarker]) = none) →
      splitLoopC fs perms top (top ++ s) file steps fuel =
        some (⟨goJoinAbs top (s.foldr accJoin file), [], false, 200⟩,
          steps + s.length) := by
  intro s
  induction s using List.reverseRecOn with
  | nil =>
    intro file steps fuel hf _
    match fuel, hf with
    | fuel + 1, _ => simp [splitLoopC]
  | append_singleton r c ih =>
    intro file steps fuel hf hnone
    match fuel, hf with
    | fuel + 1, hf =>
      have hne : top ++ (r ++ [c]) ≠ top := by
        intro h
        have := congrArg List.length h
        simp at this
      have hmark : fs ((top ++ (r ++ [c])) ++ [gitMarker]) = none := by
        have h1 := hnone (r.length + 1) (by omega) (by simp)
        have h2 : (r ++ [c]).take (r.length + 1) = r ++ [c] := by
          have : r.length + 1 = (r ++ [c]).length := by simp
          rw [this, List.take_length]
        rw [h2] at h1
        simpa using h1
      have hdrop : (top ++ (r ++ [c])).dropLast = top ++ r := by
        rw [← List.append_assoc, List.dropLast_concat]
      have hlast : (top ++ (r ++ [c])).getLastD [] = c := by
        rw [← List.append_assoc, List.getLastD_concat]
      rw [splitLoopC, if_neg hne, hmark, hdrop, hlast,
        ih (accJoin c file) (steps + 1) fuel (by simpa using hf)
          (fun k hk1 hk2 => by
            have h1 := hnone k hk1 (by simp; omega)
            have h2 : (r ++ [c]).take k = r.take k :=
              List.take_append_of_le_length hk2
            rw [h2] at h1
            exact h1)]
      simp only [List.foldr_append, List.foldr_cons, List.foldr_nil]
      congr 2
      simp
      omega

theorem splitLoop_marker (fs : FS) (perms : Nat) (top : List (List Char)) :
    ∀ (s : List (List Char)) (K : Nat) (file : List Char) (steps fuel : Nat),
      s.length < fuel → 1 ≤ K → K ≤ s.length →
      (fs (top ++ s.take K ++ [gitMarker])).isSome = true →
      (∀ k, K < k → k ≤ s.length → fs (top ++ s.take k ++ [gitMarker]) = none) →
      splitLoopC fs perms top (top ++ s) file steps fuel =
        some (markerResult fs perms (top ++ s.take K)
            ((s.drop K).foldr accJoin file),
          steps + (s.length - K)) := by
  intro s
  induction s using List.reverseRecOn with
  | nil =>
    intro K file steps fuel _ hK1 hK2 _ _
    simp at hK2
    omega
  | append_singleton r c ih =>
    intro K file steps fuel hf hK1 hK2 hmark habove
    match fuel, hf with
    | fuel + 1, hf =>
      have hne : top ++ (r ++ [c]) ≠ top := by
        intro h
        have := congrArg List.length h
        simp at this
      by_cases hKtop : K = r.length + 1
      · -- the marker sits at the starting path itself
        have htake : (r ++ [c]).take K = r ++ [c] := by
          rw [hKtop]
          have : r.length + 1 = (r ++ [c]).length := by simp
          rw [this, List.take_length]
        rw [htake] at hmark
        rcases Option.isSome_iff_exists.mp (by simpa using hmark) with ⟨fi, hfi⟩
        rw [splitLoopC, if_neg hne]
        have hfi' : fs ((top ++ (r ++ [c])) ++ [gitMarker]) = some fi := by
          simpa using hfi
        rw [hfi']
        have hdropK : (r ++ [c]).drop K = [] := by
          rw [hKtop]
          have : r.length + 1 = (r ++ [c]).length := by simp
          rw [this, List.drop_length]
        rw [htake, hdropK]
        simp only [List.foldr_nil]
        congr 2
        simp [hKtop]
      · -- the marker is strictly above: the starting path is unmarked
        have hKr : K ≤ r.length := by
          have : K ≤ r.length + 1 := by simpa using hK2
          omega
        have hmarkhere : fs ((top ++ (r ++ [c])) ++ [gitMarker]) = none := by
          have h1 := habove (r.length + 1) (by omega) (by simp)
          have h2 : (r ++ [c]).take (r.length + 1) = r ++ [c] := by
            have : r.length + 1 = (r ++ [c]).length := by simp
            rw [this, List.take_length]
          rw [h2] at h1
          simpa using h1
        have hdrop : (top ++ (r ++ [c])).dropLast = top ++ r := by
          rw [← List.append_assoc, List.dropLast_concat]
        have hlast : (top ++ (r ++ [c])).getLastD [] = c := by
          rw [← List.append_assoc, List.getLastD_concat]
        have htakeK : (r ++ [c]).take K = r.take K :=
          List.take_append_of_le_length hKr
        rw [splitLoopC, if_neg hne, hmarkhere, hdrop, hlast,
          ih K (accJoin c file) (steps + 1) fuel (by simpa using hf) hK1 hKr
            (by rw [← htakeK]; exact hmark)
            (fun k hk1 hk2 => by
              have h1 := habove k hk1 (by simp; omega)
              have h2 : (r ++ [c]).take k = r.take k :=
                List.take_append_of_le_length hk2
              rw [h2] at h1
              exact h1)]
        have hdropK : (r ++ [c]).drop K = r.drop K ++ [c] :=
          List.drop_append_of_le_length hKr
        rw [htakeK, hdropK]
        simp only [List.foldr_append, List.foldr_cons, List.foldr_nil]
        congr 2
        simp
        omega

/-- Every walk on a descendant of `toplevel` either meets no marker and
stops at `toplevel`, or stops at the innermost marked directory; in both
cases the result is independent of any sufficient fuel. -/
theorem splitLoop_total (fs : FS) (perms : Nat) (top s : List (List Char)) :
    (∀ fuel, s.length < fuel →
      splitLoopC fs perms top (top ++ s) [] 0 fuel =
        some (⟨goJoinAbs top (s.foldr accJoin []), [], false, 200⟩, s.length))
    ∨ ∃ K, 1 ≤ K ∧ K ≤ s.length ∧ ∀ fuel, s.length < fuel →
        splitLoopC fs perms top (top ++ s) [] 0 fuel =
          some (markerResult fs perms (top ++ s.take K)
            ((s.drop K).foldr accJoin []), s.length - K) := by
  by_cases h : ∃ k, 1 ≤ k ∧ k ≤ s.length ∧
      (fs (top ++ s.take k ++ [gitMarker])).isSome = true
  · obtain ⟨k0, hk01, hk02, hk03⟩ := h
    set P : Nat → Prop := fun k =>
      1 ≤ k ∧ (fs (top ++ s.take k ++ [gitMarker])).isSome = true with hP
    have hPK : P (Nat.findGreatest P s.length) :=
      Nat.findGreatest_spec hk02 ⟨hk01, hk03⟩
    have habove : ∀ k, Nat.findGreatest P s.length < k → k ≤ s.length →
        fs (top ++ s.take k ++ [gitMarker]) = none := by
      intro k hk1 hk2
      have hnp : ¬ P k := Nat.findGreatest_is_greatest hk1 hk2
      cases hfs : fs (top ++ s.take k ++ [gitMarker]) with
      | none => rfl
      | some v =>
        exact absurd ⟨by have := hPK.1; omega, by rw [hfs]; rfl⟩ hnp
    refine Or.inr ⟨Nat.findGreatest P s.length, hPK.1,
      Nat.findGreatest_le s.length, fun fuel hfuel => ?_⟩
    simpa using splitLoop_marker fs perms top s _ [] 0 fuel hfuel hPK.1
      (Nat.findGreatest_le s.length) hPK.2 habove
  · refine Or.inl (fun fuel hfuel => ?_)
    have hnone : ∀ k, 1 ≤ k → k ≤ s.length →
        fs (top ++ s.take k ++ [gitMarker]) = none := by
      intro k hk1 hk2
      cases hfs : fs (top ++ s.take k ++ [gitMarker]) with
      | none => rfl
      | some v =>
        exact absurd ⟨k, hk1, hk2, by rw [hfs]; rfl⟩ h
    simpa using splitLoop_noMarker fs perms top s [] 0 fuel hfuel hnone

/-- C1: for every servingRoot and every requested path that is a descendant
of it (given as servingRoot ++ suffix, with cleaned non-empty components),
the repository returned by `SplitRepository` is the servingRoot or a
descendant of it, never an ancestor or sibling. -/
theorem C1_containment (fs : FS) (perms : Nat) (top s : List (List Char))
    (hclean : ∀ c ∈ s, c ≠ []) :
    ∃ r, SplitRepository fs perms top (top ++ s) = some r ∧
      ∃ q, top <+: q ∧ r.repository = renderAbs q := by
  have hf : s.length < (top ++ s).length + 1 := by simp; omega
  rcases splitLoop_total fs perms top s with h | ⟨K, hK1, hK2, h⟩
  · exact ⟨⟨goJoinAbs top (s.foldr accJoin []), [], false, 200⟩,
      by unfold SplitRepository; rw [h _ hf]; rfl,
      top ++ s, List.prefix_append _ _, goJoinAbs_foldr top s hclean⟩
  · exact ⟨markerResult fs perms (top ++ s.take K) ((s.drop K).foldr accJoin []),
      by unfold SplitRepository; rw [h _ hf]; rfl,
      top ++ s.take K, List.prefix_append _ _,
      markerResult_repository fs perms _ _⟩

/-- Witness for C1: a concrete no-marker filesystem. -/
theorem C1_containment_witness :
    (∀ c ∈ ["a".toList], c ≠ ([] : List Char)) ∧
    ∃ r, SplitRepository (fun _ => none) 0 ["srv".toList]
        (["srv".toList] ++ ["a".toList]) = some r ∧
      ∃ q, ["srv".toList] <+: q ∧ r.repository = renderAbs q :=
  ⟨by decide,
    C1_containment (fun _ => none) 0 ["srv".toList] ["a".toList] (by decide)⟩

/-- C9: on a descendant of the serving root the upward walk terminates
within any fuel exceeding the depth, performing at most `depth` upward
traversals, and `SplitRepository` returns that same result. -/
theorem C9_termination_bound (fs : FS) (perms : Nat) (top s : List (List Char))
    (fuel : Nat) (hfuel : s.length < fuel) :
    ∃ r n, splitLoopC fs perms top (top ++ s) [] 0 fuel = some (r, n) ∧
      n ≤ s.length ∧ SplitRepository fs perms top (top ++ s) = some r := by
  have hf : s.length < (top ++ s).length + 1 := by simp; omega
  rcases splitLoop_total fs perms top s with h | ⟨K, hK1, hK2, h⟩
  · exact ⟨_, s.length, h fuel hfuel, le_refl _,
      by unfold SplitRepository; rw [h _ hf]; rfl⟩
  · exact ⟨_, s.length - K, h fuel hfuel, by omega,
      by unfold SplitRepository; rw [h _ hf]; rfl⟩

/-- Witness for C9 at depth 1 and fuel 2. -/
theorem C9_termination_bound_witness :
    (["a".toList].length < 2) ∧
    ∃ r n, splitLoopC (fun _ => none) 0 ["srv".toList]
        (["srv".toList] ++ ["a".toList]) [] 0 2 = some (r, n) ∧
      n ≤ ["a".toList].length ∧
      SplitRepository (fun _ => none) 0 ["srv".toList]
        (["srv".toList] ++ ["a".toList]) = some r :=
  ⟨by decide,
    C9_termination_bound (fun _ => none) 0 ["srv".toList] ["a".toList] 2
      (by decide)⟩

/-- C2 (amended): if no directory from the requested path up to (but
excluding) the serving root contains a `.git` subdirectory, resolution
stops at the serving root and returns `repository = Join(servingRoot,
accumulated suffix)` — the original requested path — with an empty `file`,
`isFile = false`, and status OK. -/
theorem C2_noMarker_resolution (fs : FS) (perms : Nat) (top s : List (List Char))
    (hclean : ∀ c ∈ s, c ≠ [])
    (hnone : ∀ k, 1 ≤ k → k ≤ s.length →
      fs (top ++ s.take k ++ [gitMarker]) = none) :
    SplitRepository fs perms top (top ++ s) =
      some ⟨renderAbs (top ++ s), [], false, 200⟩ := by
  unfold SplitRepository
  rw [splitLoop_noMarker fs perms top s [] 0 ((top ++ s).length + 1)
    (by simp; omega) hnone]
  simp [goJoinAbs_foldr top s hclean]

/-- Witness for C2 (amended) on a markerless filesystem. -/
theorem C2_noMarker_resolution_witness :
    (∀ c ∈ ["plain".toList, "dir".toList, "file".toList], c ≠ ([] : List Char)) ∧
    SplitRepository (fun _ => none) 0 ["srv".toList]
        (["srv".toList] ++ ["plain".toList, "dir".toList, "file".toList]) =
      some ⟨renderAbs (["srv".toList] ++
        ["plain".toList, "dir".toList, "file".toList]), [], false, 200⟩ :=
  ⟨by decide,
    C2_noMarker_resolution (fun _ => none) 0 ["srv".toList]
      ["plain".toList, "dir".toList, "file".toList] (by decide)
      (fun _ _ _ => rfl)⟩

/-- Counterexample to C2 as stated: resolving `/srv/plain/dir/file` under
servingRoot `/srv` with no `.git` anywhere returns `repository =
"/srv/plain/dir/file"` (the full requested path, not the serving root
`"/srv"`) and an empty inner path (not the accumulated suffix
`"plain/dir/file"`). -/
theorem C2_counterexample :
    SplitRepository (fun _ => none) 0 ["srv".toList]
        ["srv".toList, "plain".toList, "dir".toList, "file".toList] =
      some ⟨"/srv/plain/dir/file".toList, [], false, 200⟩ ∧
    "/srv/plain/dir/file".toList ≠ "/srv".toList ∧
    ([] : List Char) ≠ "plain/dir/file".toList := by decide

/-- C3: the repository root returned is the innermost (first met while
walking upward) directory containing a `.git` marker: if the marker is at
depth `K` below the serving root and no deeper directory up to the
requested path has one, the returned repository is that directory. -/
theorem C3_innermost_wins (fs : FS) (perms : Nat) (top s : List (List Char))
    (K : Nat) (hK1 : 1 ≤ K) (hK2 : K ≤ s.length)
    (hmark : (fs (top ++ s.take K ++ [gitMarker])).isSome = true)
    (habove : ∀ k, K < k → k ≤ s.length →
      fs (top ++ s.take k ++ [gitMarker]) = none) :
    ∃ r, SplitRepository fs perms top (top ++ s) = some r ∧
      r.repository = renderAbs (top ++ s.take K) := by
  refine ⟨markerResult fs perms (top ++ s.take K) ((s.drop K).foldr accJoin []),
    ?_, markerResult_repository fs perms _ _⟩
  unfold SplitRepository
  rw [splitLoop_marker fs perms top s K [] 0 ((top ++ s).length + 1)
    (by simp; omega) hK1 hK2 hmark habove]
  rfl

/-- Witness for C3: markers at both `/srv/a` and `/srv/a/b`; resolving
`/srv/a/b/blob/x` names `/srv/a/b`, not the enclosing `/srv/a`. -/
theorem C3_innermost_wins_witness :
    (((fun q =>
        if q = ["srv".toList, "a".toList, gitMarker] then
          some (⟨gitMarker, true, 0o755⟩ : FileInfo)
        else if q = ["srv".toList, "a".toList, "b".toList, gitMarker] then
          some ⟨gitMarker, true, 0o755⟩
        else if q = ["srv".toList, "a".toList, "b".toList] then
          some ⟨"b".toList, true, 0o755⟩
        else none : FS)
      (["srv".toList] ++
        (["a".toList, "b".toList, "blob".toList, "x".toList]).take 2 ++
        [gitMarker])).isSome = true) ∧
    ∃ r, SplitRepository
        (fun q =>
          if q = ["srv".toList, "a".toList, gitMarker] then
            some (⟨gitMarker, true, 0o755⟩ : FileInfo)
          else if q = ["srv".toList, "a".toList, "b".toList, gitMarker] then
            some ⟨gitMarker, true, 0o755⟩
          else if q = ["srv".toList, "a".toList, "b".toList] then
            some ⟨"b".toList, true, 0o755⟩
          else none)
        0 ["srv".toList]
        (["srv".toList] ++
          ["a".toList, "b".toList, "blob".toList, "x".toList]) = some r ∧
      r.repository = renderAbs (["srv".toList] ++
        (["a".toList, "b".toList, "blob".toList, "x".toList]).take 2) :=
  ⟨by decide,
    C3_innermost_wins
      (fun q =>
        if q = ["srv".toList, "a".toList, gitMarker] then
          some (⟨gitMarker, true, 0o755⟩ : FileInfo)
        else if q = ["srv".toList, "a".toList, "b".toList, gitMarker] then
          some ⟨gitMarker, true, 0o755⟩
        else if q = ["srv".toList, "a".toList, "b".toList] then
          some ⟨"b".toList, true, 0o755⟩
        else none)
      0 ["srv".toList] ["a".toList, "b".toList, "blob".toList, "x".toList]
      2 (by decide) (by decide) (by decide)
      (fun k h1 h2 => by
        have h2' : k ≤ 4 := by simpa using h2
        interval_cases k <;> decide)⟩

/-- C4 (amended): when the upward walk finds a `.git` marker and the stat
of the marked directory succeeds, the resolver returns status Forbidden
if and only if the full `CheckPerms` gate — the hidden-name check plus the
permission-bits check — rejects that directory; a directory name starting
with `.` is by itself grounds for Forbidden on this path. -/
theorem C4_forbidden_iff_checkPerms (fs : FS) (perms : Nat)
    (top s : List (List Char)) (K : Nat) (fi : FileInfo)
    (hK1 : 1 ≤ K) (hK2 : K ≤ s.length)
    (hmark : (fs (top ++ s.take K ++ [gitMarker])).isSome = true)
    (habove : ∀ k, K < k → k ≤ s.length →
      fs (top ++ s.take k ++ [gitMarker]) = none)
    (hstat : fs (top ++ s.take K) = some fi) :
    ∃ r, SplitRepository fs perms top (top ++ s) = some r ∧
      (r.status = 403 ↔ CheckPerms perms fi = false) := by
  refine ⟨markerResult fs perms (top ++ s.take K) ((s.drop K).foldr accJoin []),
    ?_, ?_⟩
  · unfold SplitRepository
    rw [splitLoop_marker fs perms top s K [] 0 ((top ++ s).length + 1)
      (by simp; omega) hK1 hK2 hmark habove]
    rfl
  · unfold markerResult
    rw [hstat]
    by_cases hcp : CheckPerms perms fi = true
    · rcases classifySuffix_status ((s.drop K).foldr accJoin []) with h | h <;>
        simp [hcp, h]
    · simp [Bool.not_eq_true] at hcp
      simp [hcp]

/-- Witness for C4 (amended): a repository directory with open permission
bits whose name starts with `.` yields Forbidden, matching `CheckPerms`. -/
theorem C4_forbidden_iff_checkPerms_witness :
    (((fun q =>
        if q = ["srv".toList, ".hidden".toList, gitMarker] then
          some (⟨gitMarker, true, 0o755⟩ : FileInfo)
        else if q = ["srv".toList, ".hidden".toList] then
          some ⟨".hidden".toList, true, 0o755⟩
        else none : FS)
      (["srv".toList] ++ ([".hidden".toList]).take 1 ++ [gitMarker])).isSome
        = true) ∧
    ∃ r, SplitRepository
        (fun q =>
          if q = ["srv".toList, ".hidden".toList, gitMarker] then
            some (⟨gitMarker, true, 0o755⟩ : FileInfo)
          else if q = ["srv".toList, ".hidden".toList] then
            some ⟨".hidden".toList, true, 0o755⟩
          else none)
        0 ["srv".toList] (["srv".toList] ++ [".hidden".toList]) = some r ∧
      (r.status = 403 ↔ CheckPerms 0 ⟨".hidden".toList, true, 0o755⟩ = false) :=
  ⟨by decide,
    C4_forbidden_iff_checkPerms
      (fun q =>
        if q = ["srv".toList, ".hidden".toList, gitMarker] then
          some (⟨gitMarker, true, 0o755⟩ : FileInfo)
        else if q = ["srv".toList, ".hidden".toList] then
          some ⟨".hidden".toList, true, 0o755⟩
        else none)
      0 ["srv".toList] [".hidden".toList] 1 ⟨".hidden".toList, true, 0o755⟩
      (by decide) (by decide) (by decide)
      (fun k h1 h2 => absurd (by simpa using h2) (by omega : ¬ k ≤ 1))
      (by decide)⟩

/-- Counterexample to C4 as stated: a repository directory named
`.hidden` with permission bits 0755 passes the bits-only check
(`CheckPermBits`), yet the resolver returns 403 Forbidden — the code runs
the full `CheckPerms` (hidden-name included) at marker confirmation, so
hiddenness alone is grounds for Forbidden. -/
theorem C4_counterexample :
    SplitRepository
        (fun q =>
          if q = ["srv".toList, ".hidden".toList, gitMarker] then
            some (⟨gitMarker, true, 0o755⟩ : FileInfo)
          else if q = ["srv".toList, ".hidden".toList] then
            some ⟨".hidden".toList, true, 0o755⟩
          else none)
        0 ["srv".toList] ["srv".toList, ".hidden".toList] =
      some ⟨"/srv/.hidden".toList, [], false, 403⟩ ∧
    CheckPermBits 0 ⟨".hidden".toList, true, 0o755⟩ = true := by decide

/-! Bit-level helpers for the permission mask of `CheckPermBits`. -/

theorem and_pos_iff_testBit (x y : Nat) :
    0 < x &&& y ↔ ∃ i, x.testBit i = true ∧ y.testBit i = true := by
  constructor
  · intro h
    obtain ⟨i, hi⟩ := Nat.ne_zero_implies_bit_true (Nat.pos_iff_ne_zero.mp h)
    rw [Nat.testBit_and, Bool.and_eq_true] at hi
    exact ⟨i, hi⟩
  · rintro ⟨i, hx, hy⟩
    have hbit : (x &&& y).testBit i = true := by
      rw [Nat.testBit_and, hx, hy]
      rfl
    rcases Nat.eq_zero_or_pos (x &&& y) with h0 | hpos
    · rw [h0, Nat.zero_testBit] at hbit
      exact Bool.noConfusion hbit
    · exact hpos

theorem testBit_five (j : Nat) : Nat.testBit 5 j = true ↔ (j = 0 ∨ j = 2) := by
  match j with
  | 0 => decide
  | 1 => decide
  | 2 => decide
  | j + 3 =>
    have h5 : (5 : Nat) < 2 ^ (j + 3) :=
      lt_of_lt_of_le (by norm_num : (5 : Nat) < 2 ^ 3)
        (Nat.pow_le_pow_right (by norm_num) (by omega))
    rw [Nat.testBit_lt_two_pow h5]
    constructor
    · intro h
      exact Bool.noConfusion h
    · intro h
      omega

theorem testBit_four (j : Nat) : Nat.testBit 4 j = true ↔ j = 2 := by
  match j with
  | 0 => decide
  | 1 => decide
  | 2 => decide
  | j + 3 =>
    have h4 : (4 : Nat) < 2 ^ (j + 3) :=
      lt_of_lt_of_le (by norm_num : (4 : Nat) < 2 ^ 3)
        (Nat.pow_le_pow_right (by norm_num) (by omega))
    rw [Nat.testBit_lt_two_pow h4]
    constructor
    · intro h
      exact Bool.noConfusion h
    · intro h
      omega

theorem and_shifted_five (p s : Nat) :
    (0 < p &&& (5 <<< s)) ↔
      (p.testBit (s + 2) = true ∨ p.testBit s = true) := by
  rw [and_pos_iff_testBit]
  constructor
  · rintro ⟨i, hp, hm⟩
    rw [Nat.testBit_shiftLeft] at hm
    rw [Bool.and_eq_true] at hm
    obtain ⟨hsi, h5⟩ := hm
    have hsi' : s ≤ i := of_decide_eq_true hsi
    rcases (testBit_five (i - s)).mp h5 with h | h
    · right
      have : i = s := by omega
      rwa [this] at hp
    · left
      have : i = s + 2 := by omega
      rwa [this] at hp
  · rintro (h | h)
    · refine ⟨s + 2, h, ?_⟩
      rw [Nat.testBit_shiftLeft]
      have h1 : decide (s + 2 ≥ s) = true := by simp
      have h2 : Nat.testBit 5 (s + 2 - s) = true := by
        apply (testBit_five _).mpr
        omega
      rw [h1, h2]
      rfl
    · refine ⟨s, h, ?_⟩
      rw [Nat.testBit_shiftLeft]
      have h1 : decide (s ≥ s) = true := by simp
      have h2 : Nat.testBit 5 (s - s) = true := by
        apply (testBit_five _).mpr
        omega
      rw [h1, h2]
      rfl

theorem and_shifted_four (p s : Nat) :
    (0 < p &&& (4 <<< s)) ↔ p.testBit (s + 2) = true := by
  rw [and_pos_iff_testBit]
  constructor
  · rintro ⟨i, hp, hm⟩
    rw [Nat.testBit_shiftLeft] at hm
    rw [Bool.and_eq_true] at hm
    obtain ⟨hsi, h4⟩ := hm
    have hsi' : s ≤ i := of_decide_eq_true hsi
    have h : i - s = 2 := (testBit_four (i - s)).mp h4
    have : i = s + 2 := by omega
    rwa [this] at hp
  · intro h
    refine ⟨s + 2, h, ?_⟩
    rw [Nat.testBit_shiftLeft]
    have h1 : decide (s + 2 ≥ s) = true := by simp
    have h2 : Nat.testBit 4 (s + 2 - s) = true := by
      apply (testBit_four _).mpr
      omega
    rw [h1, h2]
    rfl

/-- C5 (amended): `CheckPermBits` returns true iff the entry is a
directory whose permission bits grant read or execute — at least one of
the two, not necessarily both — to the configured principal class, or a
non-directory whose bits grant read to that class; the class's read bit is
bit `3·threshold + 2` and its execute bit is bit `3·threshold` of the
9-bit permission field. -/
theorem C5_checkPermBits_iff (perms : Nat) (fi : FileInfo) :
    CheckPermBits perms fi = true ↔
      ((fi.isDir = true ∧
          ((fi.mode &&& 0o777).testBit (perms * 3 + 2) = true ∨
            (fi.mode &&& 0o777).testBit (perms * 3) = true)) ∨
        (fi.isDir = false ∧
          (fi.mode &&& 0o777).testBit (perms * 3 + 2) = true)) := by
  unfold CheckPermBits
  cases hdir : fi.isDir with
  | true =>
    simp only [hdir, if_true, decide_eq_true_eq]
    rw [and_shifted_five (fi.mode &&& 0o777) (perms * 3)]
    simp
  | false =>
    simp only [hdir, decide_eq_true_eq]
    rw [show (if false = true then (5 : Nat) else 4) = 4 from by simp]
    rw [and_shifted_four (fi.mode &&& 0o777) (perms * 3)]
    simp

/-- Counterexample to C5 as stated: a directory with permission bits 0004
(other: read only, no execute) is accepted by `CheckPermBits` at
threshold 0 although the class's read-and-execute requirement does not
hold — the code tests a non-zero intersection with the 0b101 mask, not
both bits. -/
theorem C5_counterexample :
    CheckPermBits 0 ⟨['d'], true, 0o004⟩ = true ∧
    Nat.testBit ((0o004 : Nat) &&& 0o777) 2 = true ∧
    Nat.testBit ((0o004 : Nat) &&& 0o777) 0 = false := by decide

/-- C6: an entry whose name starts with `.` always fails `CheckPerms`,
whatever its permission bits and type, and consequently is never included
in a generated directory listing. -/
theorem C6_hidden_suppression (perms : Nat) (fi : FileInfo) (fs : FS)
    (directory dirnames : List (List Char))
    (hdot : ['.'].isPrefixOf fi.name = true) :
    CheckPerms perms fi = false ∧
      fi.name ∉ dirListNames fs perms directory dirnames := by
  have hgate : ∀ info : FileInfo, info.name = fi.name →
      CheckPerms perms info = false := by
    intro info hname
    unfold CheckPerms
    rw [hname, if_pos hdot]
  refine ⟨hgate fi rfl, ?_⟩
  intro hmem
  unfold dirListNames at hmem
  rcases List.mem_filterMap.mp hmem with ⟨n, _, heq⟩
  cases hfs : fs (directory ++ [n]) with
  | none =>
    simp only [hfs] at heq
    exact Option.noConfusion heq
  | some info =>
    simp only [hfs] at heq
    by_cases hcp : CheckPerms perms info = true
    · rw [if_pos hcp] at heq
      have hn : info.name = fi.name := Option.some.inj heq
      rw [hgate info hn] at hcp
      exact Bool.noConfusion hcp
    · rw [if_neg hcp] at heq
      exact Option.noConfusion heq

/-- Witness for C6 on a concrete `.git` entry with open permissions. -/
theorem C6_hidden_suppression_witness :
    (['.'].isPrefixOf (".git".toList) = true) ∧
    CheckPerms 0 ⟨".git".toList, true, 0o777⟩ = false ∧
      ".git".toList ∉ dirListNames
        (fun _ => some ⟨".git".toList, true, 0o777⟩) 0 [] [".git".toList] :=
  ⟨by decide,
    C6_hidden_suppression 0 ⟨".git".toList, true, 0o777⟩
      (fun _ => some ⟨".git".toList, true, 0o777⟩) [] [".git".toList]
      (by decide)⟩

/-- Trimming trailing separators ignores one appended separator. -/
theorem trimRightSep_append_sep (r : List Char) :
    trimRightSep (r ++ ['/']) = trimRightSep r := by
  unfold trimRightSep
  rw [List.reverse_append]
  simp [List.dropWhile]

/-- C7: classification of the inner suffix once a repository root is
confirmed and permitted: `blob/…` yields a file view with the prefix
stripped and trailing separators trimmed, `tree/…` yields a directory view
with the prefix stripped (a bare `tree` normalizes to `./`), a non-empty
suffix matching neither prefix yields 404, and an empty suffix yields
status OK with no file. -/
theorem C7_suffix_classification (b t file : List Char) (hne : file ≠ [])
    (hblob : "blob/".toList.isPrefixOf (file ++ ['/']) = false)
    (htree : "tree/".toList.isPrefixOf (file ++ ['/']) = false) :
    classifySuffix ("blob/".toList ++ b) = (trimRightSep b, true, 200) ∧
    classifySuffix ("tree/".toList ++ t) = (t ++ ['/'], false, 200) ∧
    classifySuffix "tree".toList = ("./".toList, false, 200) ∧
    classifySuffix file = (file ++ ['/'], false, 404) ∧
    classifySuffix [] = ([], false, 200) := by
  refine ⟨?_, ?_, by decide, ?_, by decide⟩
  · have hb : "blob/".toList = ['b', 'l', 'o', 'b', '/'] := rfl
    simp [classifySuffix, hb, afterFirstSep, List.isPrefixOf, List.dropWhile,
      trimRightSep_append_sep]
  · have ht : "tree/".toList = ['t', 'r', 'e', 'e', '/'] := rfl
    have hb : "blob/".toList = ['b', 'l', 'o', 'b', '/'] := rfl
    simp [classifySuffix, hb, ht, afterFirstSep, List.isPrefixOf,
      List.dropWhile]
  · unfold classifySuffix
    rw [if_neg hne]
    dsimp only
    rw [hblob, htree]
    simp

/-- Witness for C7: `blob/README.md`, `tree/src/lib`, and the unmatched
suffix `neither/thing`. -/
theorem C7_suffix_classification_witness :
    ("neither/thing".toList ≠ ([] : List Char)) ∧
    ("blob/".toList.isPrefixOf ("neither/thing".toList ++ ['/']) = false) ∧
    ("tree/".toList.isPrefixOf ("neither/thing".toList ++ ['/']) = false) ∧
    (classifySuffix ("blob/".toList ++ "README.md".toList) =
        (trimRightSep "README.md".toList, true, 200) ∧
      classifySuffix ("tree/".toList ++ "src/lib".toList) =
        ("src/lib".toList ++ ['/'], false, 200) ∧
      classifySuffix "tree".toList = ("./".toList, false, 200) ∧
      classifySuffix "neither/thing".toList =
        ("neither/thing".toList ++ ['/'], false, 404) ∧
      classifySuffix [] = ([], false, 200)) :=
  ⟨by decide, by decide, by decide,
    C7_suffix_classification "README.md".toList "src/lib".toList
      "neither/thing".toList (by decide) (by decide) (by decide)⟩

/-- C8: if the `.git` marker was just observed under the cursor and the
stat of the cursor directory itself then fails, resolution returns 500
InternalError — never a client-error status such as 403 or 404. -/
theorem C8_internal_error (fs : FS) (perms : Nat) (top s : List (List Char))
    (K : Nat) (hK1 : 1 ≤ K) (hK2 : K ≤ s.length)
    (hmark : (fs (top ++ s.take K ++ [gitMarker])).isSome = true)
    (habove : ∀ k, K < k → k ≤ s.length →
      fs (top ++ s.take k ++ [gitMarker]) = none)
    (hstat : fs (top ++ s.take K) = none) :
    ∃ r, SplitRepository fs perms top (top ++ s) = some r ∧
      r.status = 500 ∧ r.status ≠ 403 ∧ r.status ≠ 404 := by
  refine ⟨markerResult fs perms (top ++ s.take K) ((s.drop K).foldr accJoin []),
    ?_, ?_⟩
  · unfold SplitRepository
    rw [splitLoop_marker fs perms top s K [] 0 ((top ++ s).length + 1)
      (by simp; omega) hK1 hK2 hmark habove]
    rfl
  · have h : markerResult fs perms (top ++ s.take K)
        ((s.drop K).foldr accJoin []) =
        ⟨renderAbs (top ++ s.take K), (s.drop K).foldr accJoin [],
          false, 500⟩ := by
      unfold markerResult
      rw [hstat]
    rw [h]
    simp

/-- Witness for C8: the marker `/srv/repo/.git` stats fine but `/srv/repo`
itself does not. -/
theorem C8_internal_error_witness :
    (((fun q =>
        if q = ["srv".toList, "repo".toList, gitMarker] then
          some (⟨gitMarker, true, 0o755⟩ : FileInfo)
        else none : FS)
      (["srv".toList] ++ (["repo".toList]).take 1 ++ [gitMarker])).isSome
        = true) ∧
    ∃ r, SplitRepository
        (fun q =>
          if q = ["srv".toList, "repo".toList, gitMarker] then
            some (⟨gitMarker, true, 0o755⟩ : FileInfo)
          else none)
        0 ["srv".toList] (["srv".toList] ++ ["repo".toList]) = some r ∧
      r.status = 500 ∧ r.status ≠ 403 ∧ r.status ≠ 404 :=
  ⟨by decide,
    C8_internal_error
      (fun q =>
        if q = ["srv".toList, "repo".toList, gitMarker] then
          some (⟨gitMarker, true, 0o755⟩ : FileInfo)
        else none)
      0 ["srv".toList] ["repo".toList] 1 (by decide) (by decide) (by decide)
      (fun k h1 h2 => absurd (by simpa using h2) (by omega : ¬ k ≤ 1))
      (by decide)⟩

/-- C10: resolving a confirmed, permitted repository whose inner suffix is
exactly `blob` returns status OK with `isFile = true` and an empty inner
file path, not 404. -/
theorem C10_bare_blob :
    SplitRepository
        (fun q =>
          if q = ["srv".toList, "repo".toList, gitMarker] then
            some (⟨gitMarker, true, 0o755⟩ : FileInfo)
          else if q = ["srv".toList, "repo".toList] then
            some ⟨"repo".toList, true, 0o755⟩
          else none)
        0 ["srv".toList] ["srv".toList, "repo".toList, "blob".toList] =
      some ⟨"/srv/repo".toList, [], true, 200⟩ := by decide

end Grove
